import Mathlib

/-!
# Verification of the Envie .env store (`src/lib.rs`)

Shallow embedding of the Envie library: a store of key/value pairs loaded
from a `.env` file, with typed accessors falling back to process
environment variables, and mutations that rewrite the backing file.

Strings are modelled as `List Char` (Rust `String` / `&str`).  The process
environment and the filesystem are modelled as explicit state records that
the operations take and return, mirroring the Rust side effects.
-/

/-- A Rust `HashMap<String, String>` is modelled as an association list
together with `insertKV` / `lookupKV`; `insertKV` has the semantics of
`HashMap::insert` (overwrite the value of an existing key, otherwise add
the entry).  Position in the list carries no meaning, matching the
unordered `HashMap`. -/
abbrev EnvMap := List (List Char × List Char)

/-- `HashMap::get`. -/
def lookupKV : EnvMap → List Char → Option (List Char)
  | [], _ => none
  | (k', v) :: rest, k => if k' = k then some v else lookupKV rest k

/-- `HashMap::insert`: overwrite the value of an existing key in place,
otherwise append the new entry. -/
def insertKV : EnvMap → List Char → List Char → EnvMap
  | [], k, v => [(k, v)]
  | (k', v') :: rest, k, v =>
      if k' = k then (k, v) :: rest else (k', v') :: insertKV rest k v

/-- The keys of a map, in representation order. -/
def keys (m : EnvMap) : List (List Char) := m.map Prod.fst

/-- Rust `char::is_whitespace`, restricted to the ASCII whitespace that can
occur in the claims (` `, `\t`, `\n`, `\r`); `Char.isWhitespace` tests
exactly these. -/
def isWS (c : Char) : Bool := c.isWhitespace

/-- `str::trim_start`: drop leading whitespace. -/
def trimLeft : List Char → List Char
  | [] => []
  | c :: cs => if isWS c then trimLeft cs else c :: cs

/-- `str::trim_end`: drop trailing whitespace. -/
def trimRight (s : List Char) : List Char := (trimLeft s.reverse).reverse

/-- `str::trim`: drop leading and trailing whitespace. -/
def trim (s : List Char) : List Char := trimRight (trimLeft s)

/-- Split a string at every `'\n'`; the result has one fragment more than
the number of `'\n'` characters (so it is never empty). -/
def splitNL : List Char → List (List Char)
  | [] => [[]]
  | c :: cs =>
    if c = '\n' then [] :: splitNL cs
    else
      match splitNL cs with
      | l :: ls => (c :: l) :: ls
      | [] => [[c]]

/-- Drop one trailing `'\r'`, as Rust `lines` does on every fragment that
was terminated by a `'\n'`. -/
def stripCR (l : List Char) : List Char :=
  if l.getLast? = some '\r' then l.dropLast else l

/-- Rust `str::lines`: split at `'\n'`; fragments that were terminated by a
`'\n'` lose one trailing `'\r'`; a final unterminated fragment is kept
as-is, and a final empty fragment (text ending in `'\n'`, or empty text)
produces no line. -/
def lines (s : List Char) : List (List Char) :=
  let parts := splitNL s
  parts.dropLast.map stripCR ++
    (match parts.getLast? with
     | some [] => []
     | some l => [l]
     | none => [])

/-- `str::split_once(sep)`: split at the first occurrence of `sep`,
returning the parts before and after it, or `none` if `sep` is absent. -/
def splitOnce (sep : Char) : List Char → Option (List Char × List Char)
  | [] => none
  | c :: cs =>
    if c = sep then some ([], cs)
    else (splitOnce sep cs).map (fun p => (c :: p.1, p.2))

/-- The body of the closure in `Envie::parse`, applied to one line:
trim the line; skip it when empty or starting with `'#'`; otherwise split
at the first `'='` into key and value and trim each side, a line without
`'='` becoming a key with empty value. -/
def parseLine (line : List Char) : Option (List Char × List Char) :=
  let l := trim line
  if l = [] ∨ l.head? = some '#' then none
  else some (((splitOnce '=' l).map (fun p => (trim p.1, trim p.2))).getD (l, []))

/-- Fold a list of entries into a map by repeated insertion: this is what
`collect::<HashMap<_, _>>()` does with the parsed entries. -/
def foldInsert (init : EnvMap) (l : List (List Char × List Char)) : EnvMap :=
  l.foldl (fun m kv => insertKV m kv.1 kv.2) init

/-- The Envie store: `pub struct Envie { pub variables: HashMap<String, String> }`.
The field is called `vars` because `variables` is a reserved word in Lean. -/
structure Envie where
  vars : EnvMap
deriving DecidableEq

/-- `Envie::parse`: `content.lines().filter_map(...).collect()`. -/
def Envie.parse (content : List Char) : EnvMap :=
  foldInsert [] ((lines content).filterMap parseLine)

/-- The errors the Rust methods report as `String`s, abstracted into one
constructor per distinct format string:
`loadError p` = "Failed to read .env file from '{p}' ...",
`keyNotFound k` = "Key '{k}' not found",
`invalidBool k` = "Invalid boolean value for key '{k}'",
`invalidInt k` = "Invalid integer value for key '{k}'",
`invalidFloat k` = "Invalid float value for key '{k}'",
`writeError` = "Failed to write to .env file". -/
inductive EnvErr where
  | loadError (path : List Char)
  | keyNotFound (key : List Char)
  | invalidBool (key : List Char)
  | invalidInt (key : List Char)
  | invalidFloat (key : List Char)
  | writeError
deriving DecidableEq

/-- The process environment, as consulted by `std::env::var(key).ok()`:
an opaque key to value map (`none` covers both `NotPresent` and
`NotUnicode`). -/
structure Sys where
  env : List Char → Option (List Char)

/-- The filesystem: `contents p` is what `fs::read_to_string(p)` returns
(`none` = read error), and `writeOk p` says whether `fs::write(p, _)`
succeeds. -/
structure FS where
  contents : List Char → Option (List Char)
  writeOk : List Char → Bool

/-- `fs::write(path, content)`: on success the file's contents are
replaced; on failure the filesystem is unchanged. -/
def FS.write (fs : FS) (path content : List Char) : Bool × FS :=
  if fs.writeOk path then
    (true, ⟨fun p => if p = path then some content else fs.contents p, fs.writeOk⟩)
  else (false, fs)

/-- The hard-coded default path `".env"` used by `load`, `reload`, `set`
and `remove`. -/
def dotEnvPath : List Char := ".env".data

/-- `Envie::load_with_path`: read the file, parse it into a new store. -/
def Envie.load_with_path (fs : FS) (path : List Char) : Except EnvErr Envie :=
  match fs.contents path with
  | none => Except.error (EnvErr.loadError path)
  | some c => Except.ok ⟨Envie.parse c⟩

/-- `Envie::load`: `load_with_path(".env")`. -/
def Envie.load (fs : FS) : Except EnvErr Envie :=
  Envie.load_with_path fs dotEnvPath

/-- `Envie::reload`: re-read `".env"`; the `?` on the read returns the
error before `self.variables` is assigned, so on failure the store is
returned unchanged. -/
def Envie.reload (e : Envie) (fs : FS) : Except EnvErr Unit × Envie :=
  match fs.contents dotEnvPath with
  | none => (Except.error (EnvErr.loadError dotEnvPath), e)
  | some c => (Except.ok (), ⟨Envie.parse c⟩)

/-- `Envie::get`: the in-memory value when present, otherwise
`env::var(key).ok()`. -/
def Envie.get (e : Envie) (sys : Sys) (k : List Char) : Option (List Char) :=
  match lookupKV e.vars k with
  | some v => some v
  | none => sys.env k

/-- Rust `str::to_lowercase`, on the ASCII range the claims exercise:
character-wise lowercasing. -/
def toLowercase (s : List Char) : List Char := s.map Char.toLower

/-- `Envie::get_bool`: lowercase the value; `"true"`/`"1"` are true,
`"false"`/`"0"` are false, anything else is an error; a missing key is
`keyNotFound`. -/
def Envie.get_bool (e : Envie) (sys : Sys) (k : List Char) : Except EnvErr Bool :=
  match (e.get sys k).map toLowercase with
  | none => Except.error (EnvErr.keyNotFound k)
  | some v =>
    if v = "true".data ∨ v = "1".data then Except.ok true
    else if v = "false".data ∨ v = "0".data then Except.ok false
    else Except.error (EnvErr.invalidBool k)

/-- `char::to_digit(10)`: the value of an ASCII decimal digit. -/
def digitVal (c : Char) : Option Nat :=
  if '0' ≤ c ∧ c ≤ '9' then some (c.toNat - '0'.toNat) else none

/-- The value of a nonempty all-digit string, `none` otherwise. -/
def digitsVal (s : List Char) : Option Nat :=
  if s = [] then none
  else
    s.foldl
      (fun acc c =>
        match acc, digitVal c with
        | some a, some d => some (a * 10 + d)
        | _, _ => none)
      (some 0)

/-- Rust `<i32 as FromStr>::from_str`: an optional single `'+'` or `'-'`
sign followed by one or more ASCII digits; a result outside the `i32`
range is an error (Rust's checked accumulation overflows exactly when the
denoted value lies outside `[-2^31, 2^31 - 1]`). -/
def parseI32 (s : List Char) : Option Int :=
  match s with
  | [] => none
  | c :: rest =>
    if c = '+' then
      (digitsVal rest).bind fun n =>
        if (n : Int) ≤ 2147483647 then some (n : Int) else none
    else if c = '-' then
      (digitsVal rest).bind fun n =>
        if (n : Int) ≤ 2147483648 then some (-(n : Int)) else none
    else
      (digitsVal (c :: rest)).bind fun n =>
        if (n : Int) ≤ 2147483647 then some (n : Int) else none

/-- `Envie::get_int`: `get`, then `v.parse::<i32>()`, with `keyNotFound`
for a missing key and `invalidInt` for a failed parse. -/
def Envie.get_int (e : Envie) (sys : Sys) (k : List Char) : Except EnvErr Int :=
  match e.get sys k with
  | none => Except.error (EnvErr.keyNotFound k)
  | some v =>
    match parseI32 v with
    | some n => Except.ok n
    | none => Except.error (EnvErr.invalidInt k)

/-- The file content `set` and `remove` build: the `for (k, v)` loop pushes
`"{k}={v}\n"` for every entry in iteration order, i.e. the concatenation of
the entries' lines. -/
def serializeMap : EnvMap → List Char
  | [] => []
  | (k, v) :: rest => k ++ '=' :: v ++ '\n' :: serializeMap rest

/-- `Envie::set`: insert into the in-memory map first, then rewrite the
hard-coded path `".env"` with one `KEY=VALUE` line per entry; a failed
write reports `writeError` but the insertion is not rolled back. -/
def Envie.set (e : Envie) (fs : FS) (k v : List Char) :
    Except EnvErr Unit × Envie × FS :=
  let vars := insertKV e.vars k v
  let w := fs.write dotEnvPath (serializeMap vars)
  if w.1 then (Except.ok (), ⟨vars⟩, w.2)
  else (Except.error EnvErr.writeError, ⟨vars⟩, w.2)

deriving instance DecidableEq for Except

/-- The `KEY=VALUE` line an entry contributes to the serialized file. -/
def lineOf (kv : List Char × List Char) : List Char := kv.1 ++ '=' :: kv.2

/-- The value attached to the last entry with key `k` in a list of parsed
entries (`none` when no entry has that key). -/
def lastValue : List (List Char × List Char) → List Char → Option (List Char)
  | [], _ => none
  | (k', v) :: rest, k =>
    match lastValue rest k with
    | some w => some w
    | none => if k' = k then some v else none

/-- A key that survives a serialize/parse round-trip unchanged: already
trimmed, free of `'='` and `'\n'`, and not starting the line as a comment. -/
def CleanKey (k : List Char) : Prop :=
  trim k = k ∧ '=' ∉ k ∧ '\n' ∉ k ∧ k.head? ≠ some '#'

/-- A value that survives a serialize/parse round-trip unchanged: already
trimmed and free of `'\n'`. -/
def CleanVal (v : List Char) : Prop :=
  trim v = v ∧ '\n' ∉ v

instance (k : List Char) : Decidable (CleanKey k) := by
  unfold CleanKey
  infer_instance

instance (v : List Char) : Decidable (CleanVal v) := by
  unfold CleanVal
  infer_instance

/-- The per-line rule written from the spec's words (§4.1): "trim
surrounding whitespace; skip lines that are empty after trimming or whose
first character is `#`; otherwise split at the first `=` character into
key and value, trim each side independently.  A line containing no `=` is
treated as a key with an empty value."  Used only to compare `Envie.parse`
against the specification. -/
def specLineEntryC1 (line : List Char) : Option (List Char × List Char) :=
  let t := trim line
  if t = [] then none
  else if t.head? = some '#' then none
  else
    match splitOnce '=' t with
    | some (k, v) => some (trim k, trim v)
    | none => some (t, [])

/-- The parser written from the spec's words (§4.1): "split into lines",
process each line by `specLineEntryC1`, each retained line contributing its
entry to the mapping. -/
def specParseC1 (content : List Char) : EnvMap :=
  (lines content).foldl
    (fun m line =>
      match specLineEntryC1 line with
      | none => m
      | some kv => insertKV m kv.1 kv.2)
    []

/-! ## Lemmas about trimming -/

theorem length_trimLeft_le (s : List Char) : (trimLeft s).length ≤ s.length := by
  induction s with
  | nil => simp [trimLeft]
  | cons c cs ih =>
    simp only [trimLeft]
    split
    · exact Nat.le_succ_of_le ih
    · simp

theorem trimLeft_cons_of_not_ws {c : Char} (s : List Char) (h : isWS c = false) :
    trimLeft (c :: s) = c :: s := by
  simp [trimLeft, h]

theorem trimLeft_eq_self_of_length {s : List Char}
    (h : (trimLeft s).length = s.length) : trimLeft s = s := by
  induction s with
  | nil => rfl
  | cons c cs ih =>
    cases hc : isWS c with
    | true =>
      exfalso
      have h1 : trimLeft (c :: cs) = trimLeft cs := by simp [trimLeft, hc]
      rw [h1] at h
      have h2 := length_trimLeft_le cs
      simp at h
      omega
    | false => simp [trimLeft, hc]

theorem length_trimRight_le (s : List Char) : (trimRight s).length ≤ s.length := by
  have h := length_trimLeft_le s.reverse
  simpa [trimRight] using h

theorem trimLeft_eq_of_trim_eq {s : List Char} (h : trim s = s) : trimLeft s = s := by
  have h1 := length_trimLeft_le s
  have h2 := length_trimRight_le (trimLeft s)
  have h3 : s.length ≤ (trimLeft s).length := by
    conv_lhs => rw [← h]
    exact h2
  exact trimLeft_eq_self_of_length (Nat.le_antisymm h1 h3)

theorem trimRight_eq_of_trim_eq {s : List Char} (h : trim s = s) : trimRight s = s := by
  have h1 := trimLeft_eq_of_trim_eq h
  rw [trim, h1] at h
  exact h

theorem not_ws_head_of_trimLeft {c : Char} {cs : List Char}
    (h : trimLeft (c :: cs) = c :: cs) : isWS c = false := by
  cases hws : isWS c with
  | false => rfl
  | true =>
    exfalso
    have h1 : trimLeft (c :: cs) = trimLeft cs := by simp [trimLeft, hws]
    have h2 := length_trimLeft_le cs
    have h3 := congrArg List.length (h1.symm.trans h)
    simp at h3
    omega

theorem trimRight_concat_of_not_ws {c : Char} (s : List Char) (h : isWS c = false) :
    trimRight (s ++ [c]) = s ++ [c] := by
  have h1 : (s ++ [c]).reverse = c :: s.reverse := by simp
  rw [trimRight, h1, trimLeft_cons_of_not_ws _ h]
  simp

theorem not_ws_last_of_trimRight {c : Char} {s : List Char}
    (h : trimRight (s ++ [c]) = s ++ [c]) : isWS c = false := by
  cases hws : isWS c with
  | false => rfl
  | true =>
    exfalso
    have h0 : (s ++ [c]).reverse = c :: s.reverse := by simp
    have h1 : trimRight (s ++ [c]) = trimRight s := by
      rw [trimRight, h0, trimRight]
      simp [trimLeft, hws]
    have h2 := length_trimRight_le s
    have h3 := congrArg List.length (h1.symm.trans h)
    simp at h3
    omega

theorem trim_keyval {k v : List Char} (hk : trim k = k) (hv : trim v = v) :
    trim (k ++ '=' :: v) = k ++ '=' :: v := by
  have hL : trimLeft (k ++ '=' :: v) = k ++ '=' :: v := by
    cases k with
    | nil => exact trimLeft_cons_of_not_ws _ (by decide)
    | cons c cs =>
      have hck := not_ws_head_of_trimLeft (trimLeft_eq_of_trim_eq hk)
      simp only [List.cons_append]
      exact trimLeft_cons_of_not_ws _ hck
  have hR : trimRight (k ++ '=' :: v) = k ++ '=' :: v := by
    rcases List.eq_nil_or_concat v with hv0 | ⟨v', c, hvc⟩
    · subst hv0
      exact trimRight_concat_of_not_ws k (by decide)
    · subst hvc
      have hrv : trimRight (v' ++ [c]) = v' ++ [c] := by
        simpa using trimRight_eq_of_trim_eq hv
      have hc := not_ws_last_of_trimRight hrv
      have hsh : k ++ '=' :: (v'.concat c) = (k ++ '=' :: v') ++ [c] := by simp
      rw [hsh]
      exact trimRight_concat_of_not_ws _ hc
  rw [trim, hL, hR]

/-! ## Lemmas about splitting and line parsing -/

theorem splitOnce_keyval {k : List Char} (v : List Char) (hk : '=' ∉ k) :
    splitOnce '=' (k ++ '=' :: v) = some (k, v) := by
  induction k with
  | nil => simp [splitOnce]
  | cons c cs ih =>
    have hc : ¬ c = '=' := fun h => hk (by simp [h])
    have hcs : '=' ∉ cs := fun h => hk (List.mem_cons_of_mem c h)
    simp [splitOnce, hc, ih hcs]

theorem parseLine_keyval {k v : List Char}
    (hk : trim k = k) (hke : '=' ∉ k) (hkh : k.head? ≠ some '#')
    (hv : trim v = v) :
    parseLine (k ++ '=' :: v) = some (k, v) := by
  have ht := trim_keyval hk hv
  have hcond : ¬(trim (k ++ '=' :: v) = [] ∨
      (trim (k ++ '=' :: v)).head? = some '#') := by
    rw [ht]
    rintro (h | h)
    · cases k <;> simp_all
    · cases k with
      | nil => simp at h
      | cons c cs =>
        simp at h
        exact hkh (by simp [h])
  unfold parseLine
  rw [if_neg]
  · rw [ht, splitOnce_keyval v hke]
    simp [hk, hv]
  · simpa [ht] using hcond

theorem splitNL_append {l : List Char} (rest : List Char) (h : '\n' ∉ l) :
    splitNL (l ++ '\n' :: rest) = l :: splitNL rest := by
  induction l with
  | nil => simp [splitNL]
  | cons c cs ih =>
    have hc : ¬ c = '\n' := fun hh => h (by simp [hh])
    have hcs : '\n' ∉ cs := fun hh => h (List.mem_cons_of_mem c hh)
    show splitNL (c :: (cs ++ '\n' :: rest)) = (c :: cs) :: splitNL rest
    rw [splitNL, if_neg hc, ih hcs]

/-! ## Serialization and the round-trip -/

theorem serializeMap_cons (k v : List Char) (rest : EnvMap) :
    serializeMap ((k, v) :: rest) = lineOf (k, v) ++ '\n' :: serializeMap rest := by
  simp [serializeMap, lineOf]

theorem nl_not_mem_lineOf {k v : List Char} (hk : '\n' ∉ k) (hv : '\n' ∉ v) :
    '\n' ∉ lineOf (k, v) := by
  simp only [lineOf, List.mem_append, List.mem_cons]
  rintro (h | h | h)
  · exact hk h
  · exact absurd h (by decide)
  · exact hv h

theorem splitNL_serializeMap (m : EnvMap)
    (h : ∀ kv ∈ m, '\n' ∉ kv.1 ∧ '\n' ∉ kv.2) :
    splitNL (serializeMap m) = m.map lineOf ++ [[]] := by
  induction m with
  | nil => simp [serializeMap, splitNL]
  | cons kv rest ih =>
    obtain ⟨k, v⟩ := kv
    have h1 := h (k, v) (List.mem_cons_self _ _)
    have h2 := nl_not_mem_lineOf h1.1 h1.2
    rw [serializeMap_cons, splitNL_append _ h2,
        ih (fun kv hkv => h kv (List.mem_cons_of_mem _ hkv))]
    simp

theorem stripCR_of_getLast {l : List Char} (h : l.getLast? ≠ some '\r') :
    stripCR l = l := by
  rw [stripCR, if_neg h]

theorem lineOf_getLast_not_cr {k v : List Char} (hv : trim v = v) :
    (lineOf (k, v)).getLast? ≠ some '\r' := by
  rcases List.eq_nil_or_concat v with hv0 | ⟨v', c, hvc⟩
  · subst hv0
    have : lineOf (k, []) = k ++ ['='] := by simp [lineOf]
    rw [this, List.getLast?_concat]
    decide
  · subst hvc
    have hrv : trimRight (v' ++ [c]) = v' ++ [c] := by
      simpa using trimRight_eq_of_trim_eq hv
    have hc := not_ws_last_of_trimRight hrv
    have : lineOf (k, v'.concat c) = (k ++ '=' :: v') ++ [c] := by simp [lineOf]
    rw [this, List.getLast?_concat]
    intro hcc
    rw [Option.some_inj] at hcc
    subst hcc
    exact absurd hc (by decide)

theorem lines_serializeMap (m : EnvMap)
    (h : ∀ kv ∈ m, '\n' ∉ kv.1 ∧ '\n' ∉ kv.2)
    (ht : ∀ kv ∈ m, trim kv.2 = kv.2) :
    lines (serializeMap m) = m.map lineOf := by
  simp only [lines]
  rw [splitNL_serializeMap m h]
  have hdrop : (m.map lineOf ++ [([] : List Char)]).dropLast = m.map lineOf := by
    simp
  have hlast : (m.map lineOf ++ [([] : List Char)]).getLast? = some [] := by
    simp
  rw [hdrop, hlast]
  have hmap : (m.map lineOf).map stripCR = m.map lineOf := by
    rw [List.map_map]
    apply List.map_congr_left
    intro kv hkv
    exact stripCR_of_getLast (lineOf_getLast_not_cr (ht kv hkv))
  simp [hmap]

theorem filterMap_parseLine_lineOf (m : EnvMap)
    (h : ∀ kv ∈ m, CleanKey kv.1 ∧ CleanVal kv.2) :
    (m.map lineOf).filterMap parseLine = m := by
  induction m with
  | nil => rfl
  | cons kv rest ih =>
    obtain ⟨k, v⟩ := kv
    obtain ⟨⟨hk1, hk2, _, hk4⟩, hv1, _⟩ := h (k, v) (List.mem_cons_self _ _)
    have hline : parseLine (lineOf (k, v)) = some (k, v) :=
      parseLine_keyval hk1 hk2 hk4 hv1
    simp only [List.map_cons, List.filterMap_cons, hline]
    rw [ih (fun kv' hkv' => h kv' (List.mem_cons_of_mem _ hkv'))]

/-! ## Map lemmas: insertion, lookup, folding -/

theorem insertKV_of_not_mem {m : EnvMap} {k : List Char} (v : List Char)
    (h : k ∉ keys m) : insertKV m k v = m ++ [(k, v)] := by
  induction m with
  | nil => rfl
  | cons kv rest ih =>
    obtain ⟨k', v'⟩ := kv
    have hne : ¬ k' = k := by
      intro hh
      exact h (by simp [keys, hh])
    have hrest : k ∉ keys rest := fun hh => h (by simp [keys] at hh ⊢; exact Or.inr hh)
    simp [insertKV, hne, ih hrest]

theorem keys_append (m₁ m₂ : EnvMap) : keys (m₁ ++ m₂) = keys m₁ ++ keys m₂ := by
  simp [keys]

theorem foldInsert_of_disjoint (l : List (List Char × List Char)) :
    ∀ acc : EnvMap, (keys l).Nodup → (∀ a ∈ keys l, a ∉ keys acc) →
      foldInsert acc l = acc ++ l := by
  induction l with
  | nil =>
    intro acc _ _
    simp [foldInsert]
  | cons kv rest ih =>
    intro acc hnd hdisj
    obtain ⟨k, v⟩ := kv
    have hk : k ∉ keys acc := hdisj k (by simp [keys])
    have hkeys : keys ((k, v) :: rest) = k :: keys rest := by simp [keys]
    rw [hkeys] at hnd hdisj
    have hnd' : (keys rest).Nodup := hnd.of_cons
    have hknr : k ∉ keys rest := by
      intro hh
      exact (List.nodup_cons.mp hnd).1 hh
    have hdisj' : ∀ a ∈ keys rest, a ∉ keys (acc ++ [(k, v)]) := by
      intro a ha
      rw [keys_append]
      simp only [List.mem_append]
      rintro (hh | hh)
      · exact hdisj a (List.mem_cons_of_mem _ ha) hh
      · simp [keys] at hh
        subst hh
        exact hknr ha
    show foldInsert (insertKV acc k v) rest = acc ++ (k, v) :: rest
    rw [insertKV_of_not_mem v hk, ih _ hnd' hdisj']
    simp

/-- The central round-trip lemma: a map whose keys and values are clean
parses back from its own serialization unchanged. -/
theorem parse_serializeMap (m : EnvMap) (hnd : (keys m).Nodup)
    (h : ∀ kv ∈ m, CleanKey kv.1 ∧ CleanVal kv.2) :
    Envie.parse (serializeMap m) = m := by
  have hnl : ∀ kv ∈ m, '\n' ∉ kv.1 ∧ '\n' ∉ kv.2 := by
    intro kv hkv
    obtain ⟨⟨_, _, hk3, _⟩, _, hv2⟩ := h kv hkv
    exact ⟨hk3, hv2⟩
  have htv : ∀ kv ∈ m, trim kv.2 = kv.2 := fun kv hkv => (h kv hkv).2.1
  unfold Envie.parse
  rw [lines_serializeMap m hnl htv, filterMap_parseLine_lineOf m h,
      foldInsert_of_disjoint m [] hnd (by simp [keys])]
  simp

theorem lookupKV_insertKV (m : EnvMap) (k v k' : List Char) :
    lookupKV (insertKV m k v) k' = if k = k' then some v else lookupKV m k' := by
  induction m with
  | nil => simp [insertKV, lookupKV]
  | cons kv rest ih =>
    obtain ⟨k0, v0⟩ := kv
    by_cases h0 : k0 = k
    · subst h0
      by_cases h1 : k0 = k' <;> simp [insertKV, lookupKV, h1]
    · rw [insertKV, if_neg h0]
      by_cases h1 : k0 = k'
      · subst h1
        have hne : ¬ k = k0 := fun hh => h0 hh.symm
        simp [lookupKV, hne]
      · simp [lookupKV, h1, ih]

theorem lookupKV_foldInsert (l : List (List Char × List Char)) :
    ∀ (acc : EnvMap) (k : List Char),
      lookupKV (foldInsert acc l) k =
        match lastValue l k with
        | some v => some v
        | none => lookupKV acc k := by
  induction l with
  | nil =>
    intro acc k
    simp [foldInsert, lastValue]
  | cons kv rest ih =>
    intro acc k
    obtain ⟨k0, v0⟩ := kv
    have hstep : foldInsert acc ((k0, v0) :: rest)
        = foldInsert (insertKV acc k0 v0) rest := rfl
    rw [hstep, ih]
    cases hlast : lastValue rest k with
    | some w => simp [lastValue, hlast]
    | none =>
      simp only [lastValue, hlast, lookupKV_insertKV]
      by_cases h0 : k0 = k <;> simp [h0]

theorem mem_keys_insertKV {m : EnvMap} {k v a : List Char} :
    a ∈ keys (insertKV m k v) ↔ a ∈ keys m ∨ a = k := by
  induction m with
  | nil => simp [insertKV, keys]
  | cons kv rest ih =>
    obtain ⟨k0, v0⟩ := kv
    by_cases h0 : k0 = k
    · subst h0
      simp [insertKV, keys]
      tauto
    · simp [insertKV, h0, keys] at ih ⊢
      tauto

theorem nodup_keys_insertKV {m : EnvMap} (k v : List Char)
    (h : (keys m).Nodup) : (keys (insertKV m k v)).Nodup := by
  induction m with
  | nil => simp [insertKV, keys]
  | cons kv rest ih =>
    obtain ⟨k0, v0⟩ := kv
    have hk : keys ((k0, v0) :: rest) = k0 :: keys rest := by simp [keys]
    rw [hk] at h
    obtain ⟨h1, h2⟩ := List.nodup_cons.mp h
    by_cases h0 : k0 = k
    · subst h0
      have : keys ((k0, v) :: rest) = k0 :: keys rest := by simp [keys]
      rw [insertKV, if_pos rfl, this]
      exact List.nodup_cons.mpr ⟨h1, h2⟩
    · rw [insertKV, if_neg h0]
      have : keys ((k0, v0) :: insertKV rest k v)
          = k0 :: keys (insertKV rest k v) := by simp [keys]
      rw [this]
      refine List.nodup_cons.mpr ⟨?_, ih h2⟩
      intro hmem
      rcases mem_keys_insertKV.mp hmem with hh | hh
      · exact h1 hh
      · exact h0 hh

theorem mem_insertKV {m : EnvMap} {k v : List Char}
    {kv : List Char × List Char} (h : kv ∈ insertKV m k v) :
    kv ∈ m ∨ kv = (k, v) := by
  induction m with
  | nil => simpa [insertKV] using h
  | cons kv0 rest ih =>
    obtain ⟨k0, v0⟩ := kv0
    by_cases h0 : k0 = k
    · subst h0
      rw [insertKV, if_pos rfl] at h
      rcases List.mem_cons.mp h with hh | hh
      · exact Or.inr hh
      · exact Or.inl (List.mem_cons_of_mem _ hh)
    · rw [insertKV, if_neg h0] at h
      rcases List.mem_cons.mp h with hh | hh
      · exact Or.inl (by simp [hh])
      · rcases ih hh with h2 | h2
        · exact Or.inl (List.mem_cons_of_mem _ h2)
        · exact Or.inr h2

/-! ## The parser agrees with the specification text -/

theorem parseLine_eq_specLineEntry (line : List Char) :
    parseLine line = specLineEntryC1 line := by
  unfold parseLine specLineEntryC1
  by_cases h1 : trim line = []
  · simp [h1]
  · by_cases h2 : (trim line).head? = some '#'
    · simp [h1, h2]
    · rw [if_neg (by tauto), if_neg h1, if_neg h2]
      cases hsp : splitOnce '=' (trim line) with
      | none => simp
      | some kv =>
        obtain ⟨k, v⟩ := kv
        simp

theorem foldl_filterMap_entries (ls : List (List Char)) :
    ∀ acc : EnvMap,
      foldInsert acc (ls.filterMap parseLine) =
        ls.foldl
          (fun m line =>
            match specLineEntryC1 line with
            | none => m
            | some kv => insertKV m kv.1 kv.2)
          acc := by
  induction ls with
  | nil =>
    intro acc
    simp [foldInsert]
  | cons l rest ih =>
    intro acc
    rw [List.filterMap_cons]
    cases hp : parseLine l with
    | none =>
      rw [List.foldl_cons, ← parseLine_eq_specLineEntry, hp]
      exact ih acc
    | some kv =>
      rw [List.foldl_cons, ← parseLine_eq_specLineEntry, hp]
      have hstep : foldInsert acc (kv :: List.filterMap parseLine rest)
          = foldInsert (insertKV acc kv.1 kv.2) (List.filterMap parseLine rest) := rfl
      rw [hstep]
      exact ih _

theorem parseI32_range {s : List Char} {n : Int} (h : parseI32 s = some n) :
    -2147483648 ≤ n ∧ n ≤ 2147483647 := by
  cases s with
  | nil => exact absurd h (by simp [parseI32])
  | cons c rest =>
    simp only [parseI32] at h
    by_cases h1 : c = '+'
    · rw [if_pos h1] at h
      cases hd : digitsVal rest with
      | none => rw [hd] at h; exact absurd h (by simp)
      | some a =>
        rw [hd] at h
        simp only [Option.some_bind] at h
        split at h
        · rw [Option.some_inj] at h
          subst h
          constructor <;> omega
        · exact absurd h (by simp)
    · rw [if_neg h1] at h
      by_cases h2 : c = '-'
      · rw [if_pos h2] at h
        cases hd : digitsVal rest with
        | none => rw [hd] at h; exact absurd h (by simp)
        | some a =>
          rw [hd] at h
          simp only [Option.some_bind] at h
          split at h
          · rw [Option.some_inj] at h
            subst h
            constructor <;> omega
          · exact absurd h (by simp)
      · rw [if_neg h2] at h
        cases hd : digitsVal (c :: rest) with
        | none => rw [hd] at h; exact absurd h (by simp)
        | some a =>
          rw [hd] at h
          simp only [Option.some_bind] at h
          split at h
          · rw [Option.some_inj] at h
            subst h
            constructor <;> omega
          · exact absurd h (by simp)

/-! ## Claim theorems -/

/-- C1: for every input text, the parser processes it line by line exactly
as the specification describes: `Envie.parse` coincides with
`specParseC1`, the parser written from the spec's words (trim each line;
skip lines empty after trimming or whose first character is `'#'`; split
every other line at the first `'='` into key and value, trimming each
side; a line with no `'='` yields the whole trimmed line mapped to the
empty value). -/
theorem c1_parse_follows_spec (content : List Char) :
    Envie.parse content = specParseC1 content := by
  unfold Envie.parse specParseC1
  exact foldl_filterMap_entries (lines content) []

/-- C2 counterexample: the mapping `[(" A", "1")]` has no `'='` and no
newline in its key or value, yet parsing its serialization loses the
untrimmed key `" A"`: the parsed map and the original disagree at that
key, refuting `parse (serialize M) = M` as claimed. -/
theorem c2_roundtrip_counterexample :
    '=' ∉ " A".data ∧ '\n' ∉ " A".data ∧ '=' ∉ "1".data ∧ '\n' ∉ "1".data ∧
    lookupKV (Envie.parse (serializeMap [(" A".data, "1".data)])) " A".data
      ≠ lookupKV [(" A".data, "1".data)] " A".data := by
  decide

/-- C2 (amended): for a mapping whose keys and values contain no `'='` and
no newline, and in addition are whitespace-trimmed with no key starting
with `'#'`, serializing one `KEY=VALUE` line per entry (as `set`/`remove`
do) and parsing the result yields exactly the mapping again. -/
theorem c2_roundtrip (m : EnvMap) (hnd : (keys m).Nodup)
    (h : ∀ kv ∈ m, trim kv.1 = kv.1 ∧ '=' ∉ kv.1 ∧ '\n' ∉ kv.1 ∧
      kv.1.head? ≠ some '#' ∧ trim kv.2 = kv.2 ∧ '=' ∉ kv.2 ∧ '\n' ∉ kv.2) :
    Envie.parse (serializeMap m) = m := by
  apply parse_serializeMap m hnd
  intro kv hkv
  obtain ⟨h1, h2, h3, h4, h5, _, h7⟩ := h kv hkv
  exact ⟨⟨h1, h2, h3, h4⟩, h5, h7⟩

theorem c2_roundtrip_witness :
    Envie.parse (serializeMap [("KEY".data, "VALUE".data)])
      = [("KEY".data, "VALUE".data)] :=
  c2_roundtrip [("KEY".data, "VALUE".data)] (by decide) (by decide)

/-- C3: `get_bool` fails with the key-not-found error when `get` returns
nothing; when `get` returns a value, the lower-cased value `"true"` or
`"1"` yields `true`, `"false"` or `"0"` yields `false` (so the original
value is accepted case-insensitively), and any other value fails with the
boolean-kind invalid-value error. -/
theorem c3_get_bool_spec (e : Envie) (sys : Sys) (k : List Char) :
    (e.get sys k = none →
      e.get_bool sys k = Except.error (EnvErr.keyNotFound k)) ∧
    (∀ v, e.get sys k = some v →
      e.get_bool sys k =
        if toLowercase v = "true".data ∨ toLowercase v = "1".data then
          Except.ok true
        else if toLowercase v = "false".data ∨ toLowercase v = "0".data then
          Except.ok false
        else Except.error (EnvErr.invalidBool k)) := by
  constructor
  · intro h
    unfold Envie.get_bool
    rw [h]
    rfl
  · intro v h
    unfold Envie.get_bool
    rw [h]
    rfl

theorem c3_get_bool_witness :
    Envie.get_bool ⟨[("K".data, "TRUE".data)]⟩ ⟨fun _ => none⟩ "K".data
      = Except.ok true := by
  have h := (c3_get_bool_spec ⟨[("K".data, "TRUE".data)]⟩ ⟨fun _ => none⟩
    "K".data).2 "TRUE".data (by decide)
  rw [h]
  decide

/-- C4: `get` returns the in-memory mapping's value whenever the key is
present there (so the mapping wins over the environment), and otherwise
returns exactly what the process environment holds for that key (`none`
when absent from both); by its type, `get` has no error path. -/
theorem c4_get_spec (e : Envie) (sys : Sys) (k : List Char) :
    (∀ v, lookupKV e.vars k = some v → e.get sys k = some v) ∧
    (lookupKV e.vars k = none → e.get sys k = sys.env k) := by
  constructor
  · intro v h
    unfold Envie.get
    rw [h]
  · intro h
    unfold Envie.get
    rw [h]

theorem c4_get_witness :
    Envie.get ⟨[("K".data, "mem".data)]⟩
      ⟨fun p => if p = "K".data then some "env".data else none⟩ "K".data
      = some "mem".data :=
  (c4_get_spec ⟨[("K".data, "mem".data)]⟩
    ⟨fun p => if p = "K".data then some "env".data else none⟩ "K".data).1
    "mem".data (by decide)

/-- C5: `reload` is all-or-nothing: when the read of the default backing
path fails it returns the load error and the store is exactly what it was
before the call; when the read succeeds the whole mapping is replaced by
the freshly parsed file content (so entries not present in the file are
dropped). -/
theorem c5_reload_all_or_nothing (e : Envie) (fs : FS) :
    (fs.contents dotEnvPath = none →
      Envie.reload e fs = (Except.error (EnvErr.loadError dotEnvPath), e)) ∧
    (∀ c, fs.contents dotEnvPath = some c →
      Envie.reload e fs = (Except.ok (), ⟨Envie.parse c⟩)) := by
  constructor
  · intro h
    unfold Envie.reload
    rw [h]
  · intro c h
    unfold Envie.reload
    rw [h]

theorem c5_reload_witness :
    Envie.reload ⟨[("OLD".data, "1".data)]⟩ ⟨fun _ => none, fun _ => true⟩
      = (Except.error (EnvErr.loadError dotEnvPath), ⟨[("OLD".data, "1".data)]⟩) :=
  (c5_reload_all_or_nothing ⟨[("OLD".data, "1".data)]⟩
    ⟨fun _ => none, fun _ => true⟩).1 (by decide)

/-- C6: when the file write fails, `set` returns the write error while the
in-memory mapping still contains the newly inserted key-value pair: the
insertion happens before the write and is not rolled back. -/
theorem c6_set_write_failure (e : Envie) (fs : FS) (k v : List Char)
    (h : fs.writeOk dotEnvPath = false) :
    (Envie.set e fs k v).1 = Except.error EnvErr.writeError ∧
    lookupKV (Envie.set e fs k v).2.1.vars k = some v := by
  unfold Envie.set FS.write
  rw [h]
  simp [lookupKV_insertKV]

theorem c6_set_write_failure_witness :
    (Envie.set ⟨[]⟩ ⟨fun _ => none, fun _ => false⟩ "A".data "1".data).1
        = Except.error EnvErr.writeError ∧
      lookupKV (Envie.set ⟨[]⟩ ⟨fun _ => none, fun _ => false⟩
        "A".data "1".data).2.1.vars "A".data = some "1".data :=
  c6_set_write_failure ⟨[]⟩ ⟨fun _ => none, fun _ => false⟩
    "A".data "1".data (by decide)

/-- C7 counterexample: a store loaded from the explicit path
`"custom.env"` (an empty file, so the mapping is empty).  A successful
`set("A", " x")` writes the hard-coded path `".env"`, not the store's own
path, so a fresh load from `"custom.env"` does not see the mapping; and
even the fresh load from `".env"` differs from the in-memory mapping,
because the written value `" x"` is trimmed to `"x"` when parsed back. -/
theorem c7_set_counterexample :
    Envie.load_with_path
        ⟨fun p => if p = "custom.env".data then some [] else none, fun _ => true⟩
        "custom.env".data = Except.ok ⟨[]⟩ ∧
    (Envie.set ⟨[]⟩
        ⟨fun p => if p = "custom.env".data then some [] else none, fun _ => true⟩
        "A".data " x".data).1 = Except.ok () ∧
    Envie.load_with_path
        (Envie.set ⟨[]⟩
          ⟨fun p => if p = "custom.env".data then some [] else none, fun _ => true⟩
          "A".data " x".data).2.2 "custom.env".data
      ≠ Except.ok (Envie.set ⟨[]⟩
          ⟨fun p => if p = "custom.env".data then some [] else none, fun _ => true⟩
          "A".data " x".data).2.1 ∧
    Envie.load_with_path
        (Envie.set ⟨[]⟩
          ⟨fun p => if p = "custom.env".data then some [] else none, fun _ => true⟩
          "A".data " x".data).2.2 dotEnvPath
      ≠ Except.ok (Envie.set ⟨[]⟩
          ⟨fun p => if p = "custom.env".data then some [] else none, fun _ => true⟩
          "A".data " x".data).2.1 := by
  decide

/-- C7 (amended): for a store whose in-memory mapping has distinct keys and
whose entries, like the new key and value, are clean (trimmed, no `'='` in
keys, no newlines, keys not starting `'#'`), a successful `set(key,
value)` rewrites the default backing path `".env"` to contain exactly one
`KEY=VALUE` line per entry of the resulting mapping, so that a fresh load
from `".env"` yields exactly that mapping.  (The original claim fails both
for stores loaded from an explicit non-default path — `set` always writes
`".env"` — and for unclean keys or values, see the counterexample.) -/
theorem c7_set_roundtrip (e : Envie) (fs : FS) (k v : List Char)
    (hnd : (keys e.vars).Nodup)
    (hm : ∀ kv ∈ e.vars, CleanKey kv.1 ∧ CleanVal kv.2)
    (hk : CleanKey k) (hv : CleanVal v)
    (hw : fs.writeOk dotEnvPath = true) :
    (Envie.set e fs k v).1 = Except.ok () ∧
    (Envie.set e fs k v).2.2.contents dotEnvPath
      = some (serializeMap (Envie.set e fs k v).2.1.vars) ∧
    Envie.load_with_path (Envie.set e fs k v).2.2 dotEnvPath
      = Except.ok (Envie.set e fs k v).2.1 := by
  have hm' : ∀ kv ∈ insertKV e.vars k v, CleanKey kv.1 ∧ CleanVal kv.2 := by
    intro kv hkv
    rcases mem_insertKV hkv with hh | hh
    · exact hm kv hh
    · subst hh
      exact ⟨hk, hv⟩
  have hparse := parse_serializeMap (insertKV e.vars k v)
    (nodup_keys_insertKV k v hnd) hm'
  unfold Envie.set FS.write
  simp only [hw, if_true]
  refine ⟨by trivial, by simp, ?_⟩
  unfold Envie.load_with_path
  simp [hparse]

theorem c7_set_roundtrip_witness :
    (Envie.set ⟨[("B".data, "2".data)]⟩ ⟨fun _ => none, fun _ => true⟩
        "A".data "1".data).1 = Except.ok () ∧
    (Envie.set ⟨[("B".data, "2".data)]⟩ ⟨fun _ => none, fun _ => true⟩
        "A".data "1".data).2.2.contents dotEnvPath
      = some (serializeMap (Envie.set ⟨[("B".data, "2".data)]⟩
          ⟨fun _ => none, fun _ => true⟩ "A".data "1".data).2.1.vars) ∧
    Envie.load_with_path (Envie.set ⟨[("B".data, "2".data)]⟩
        ⟨fun _ => none, fun _ => true⟩ "A".data "1".data).2.2 dotEnvPath
      = Except.ok (Envie.set ⟨[("B".data, "2".data)]⟩
          ⟨fun _ => none, fun _ => true⟩ "A".data "1".data).2.1 :=
  c7_set_roundtrip ⟨[("B".data, "2".data)]⟩ ⟨fun _ => none, fun _ => true⟩
    "A".data "1".data (by decide) (by decide) (by decide) (by decide) (by decide)

/-- C8: duplicate keys are resolved by the single left-to-right pass of
repeated insertion, so for every input text and key, lookup in the parsed
mapping returns the value of the last line entry with that key; on the
concrete input `"A=1\nA=2"` the key `"A"` holds `"2"`. -/
theorem c8_last_wins (content : List Char) (k : List Char) :
    lookupKV (Envie.parse content) k
      = lastValue ((lines content).filterMap parseLine) k ∧
    lookupKV (Envie.parse "A=1\nA=2".data) "A".data = some "2".data := by
  constructor
  · unfold Envie.parse
    rw [lookupKV_foldInsert]
    cases h : lastValue ((lines content).filterMap parseLine) k <;>
      simp [lookupKV]
  · decide

/-- C9: `get_int` fails with the key-not-found error when `get` returns
nothing; otherwise it parses the value as a base-10 signed 32-bit integer:
a failed parse (which includes every value denoting an integer outside the
32-bit signed range, since `parseI32` only succeeds inside it) yields the
integer-kind invalid-value error, and a successful parse returns the
integer, necessarily within `[-2^31, 2^31 - 1]`. -/
theorem c9_get_int_spec (e : Envie) (sys : Sys) (k : List Char) :
    (e.get sys k = none →
      e.get_int sys k = Except.error (EnvErr.keyNotFound k)) ∧
    (∀ v, e.get sys k = some v → parseI32 v = none →
      e.get_int sys k = Except.error (EnvErr.invalidInt k)) ∧
    (∀ v n, e.get sys k = some v → parseI32 v = some n →
      e.get_int sys k = Except.ok n ∧ -2147483648 ≤ n ∧ n ≤ 2147483647) := by
  refine ⟨?_, ?_, ?_⟩
  · intro h
    unfold Envie.get_int
    rw [h]
  · intro v h hp
    unfold Envie.get_int
    rw [h]
    show (match parseI32 v with
      | some n => Except.ok n
      | none => Except.error (EnvErr.invalidInt k)) = _
    rw [hp]
  · intro v n h hp
    refine ⟨?_, parseI32_range hp⟩
    unfold Envie.get_int
    rw [h]
    show (match parseI32 v with
      | some n => Except.ok n
      | none => Except.error (EnvErr.invalidInt k)) = _
    rw [hp]

theorem c9_get_int_witness :
    Envie.get_int ⟨[("X".data, "42".data)]⟩ ⟨fun _ => none⟩ "X".data
        = Except.ok 42 ∧
      -2147483648 ≤ (42 : Int) ∧ (42 : Int) ≤ 2147483647 :=
  (c9_get_int_spec ⟨[("X".data, "42".data)]⟩ ⟨fun _ => none⟩ "X".data).2.2
    "42".data 42 (by decide) (by decide)

/-- C10: a line whose trimmed form begins with `'='` is neither skipped nor
an error: it yields the entry whose key is the empty string and whose
value is the trimmed remainder, so the public mapping may contain the
empty string as a key — concretely, parsing `"=value"` maps `""` to
`"value"`. -/
theorem c10_empty_key (line rest : List Char) (h : trim line = '=' :: rest) :
    parseLine line = some ([], trim rest) ∧
    lookupKV (Envie.parse "=value".data) [] = some "value".data := by
  constructor
  · have hcond : ¬(trim line = [] ∨ (trim line).head? = some '#') := by
      rw [h]
      rintro (hc | hc) <;> simp at hc
    unfold parseLine
    rw [if_neg hcond, h]
    have hsp : splitOnce '=' ('=' :: rest) = some ([], rest) := by
      simp [splitOnce]
    rw [hsp]
    rfl
  · decide

theorem c10_empty_key_witness :
    parseLine "=value".data = some ([], "value".data) := by
  have h := (c10_empty_key "=value".data "value".data (by decide)).1
  rw [h]
  decide
